import Mathlib

/-!
Verification of the task-tree engine of the TaskMannageApp repository
(`src/task-mannage-app/src/App.tsx` and `src/components/TaskTree.tsx`).

The forest of task nodes and the pure tree-transformation functions
(`removeById`, `insertChild`, `isDescendant`, `findById`, `dropAsChild`,
`toggleDone`, `create`, the sort in `sortedTasks`, the filter in
`filterTasks`, and the report classification in `handleOpenReportModal`)
are embedded shallowly below.  Modelling conventions:

* `Task` mirrors `src/types.ts`: all scalar fields are kept.  Timestamps
  (`createdAt`, `completedAt`) are `Int` milliseconds (`Date.getTime()`),
  and `due` is modelled as the parsed timestamp `new Date(t.due).getTime()`
  of the ISO date string, since every use of `due` in the engine first
  converts it with `new Date(...)` and compares numerically.
* Ambient effects (`crypto.randomUUID()`, `new Date()`) are injected as
  explicit parameters (`id`, `now`).
* Each recursive traversal is written as a mutual pair of structurally
  recursive functions, one on `Task` (suffix `T`) and one on `List Task`
  (suffix `F`), with a wrapper carrying the source's name and argument
  order.  This keeps all definitions kernel-reducible.
-/

namespace TMA

/-- Type `Priority` from `src/types.ts`: `"low" | "medium" | "high"`. -/
inductive Priority where
  | low | medium | high
deriving DecidableEq, Repr

/-- Type `Task` from `src/types.ts`.  Field order follows the source type:
`id`, `text`, `done`, `collapsed?`, `children`, `priority?`, `due?`,
`note?`, `createdAt`, `completedAt?`. -/
inductive Task where
  | mk (id : String) (text : String) (done : Bool) (collapsed : Option Bool)
       (children : List Task) (priority : Option Priority) (due : Option Int)
       (note : Option String) (createdAt : Int) (completedAt : Option Int)

def Task.id : Task → String
  | .mk i _ _ _ _ _ _ _ _ _ => i

def Task.text : Task → String
  | .mk _ tx _ _ _ _ _ _ _ _ => tx

def Task.done : Task → Bool
  | .mk _ _ d _ _ _ _ _ _ _ => d

def Task.collapsed : Task → Option Bool
  | .mk _ _ _ c _ _ _ _ _ _ => c

def Task.children : Task → List Task
  | .mk _ _ _ _ ch _ _ _ _ _ => ch

def Task.priority : Task → Option Priority
  | .mk _ _ _ _ _ p _ _ _ _ => p

def Task.due : Task → Option Int
  | .mk _ _ _ _ _ _ du _ _ _ => du

def Task.note : Task → Option String
  | .mk _ _ _ _ _ _ _ n _ _ => n

def Task.createdAt : Task → Int
  | .mk _ _ _ _ _ _ _ _ ca _ => ca

def Task.completedAt : Task → Option Int
  | .mk _ _ _ _ _ _ _ _ _ co => co

/-- Helper for `{...t, children: ch}` — replace only the `children` field. -/
def setChildren : Task → List Task → Task
  | .mk i tx d c _ p du n ca co, ch => .mk i tx d c ch p du n ca co

/-- Helper for `{...t, done: d, completedAt: co}` — replace only those two fields. -/
def setDoneCompleted : Task → Bool → Option Int → Task
  | .mk i tx _ c ch p du n ca _, d, co => .mk i tx d c ch p du n ca co

/-! ### Verification instrumentation (not from the source)

Projections used to state structural properties: `scalars` is the tuple of
all non-`children` fields of a node, `core` additionally drops the
completion state (`done`, `completedAt`), and `doneInfo` is exactly the
completion state.  `flattenDT`/`flattenDF` is a depth-annotated pre-order
flattening; the sequence of `(depth, id)` pairs determines the shape of a
forest uniquely. -/

def scalars (t : Task) :
    String × String × Bool × Option Bool × Option Priority × Option Int ×
      Option String × Int × Option Int :=
  (t.id, t.text, t.done, t.collapsed, t.priority, t.due, t.note,
    t.createdAt, t.completedAt)

def core (t : Task) :
    String × String × Option Bool × Option Priority × Option Int ×
      Option String × Int :=
  (t.id, t.text, t.collapsed, t.priority, t.due, t.note, t.createdAt)

def doneInfo (t : Task) : Bool × Option Int :=
  (t.done, t.completedAt)

/-- Depth-and-scalars view of an annotated node: position (depth) together
with every non-`children` field. -/
def dScalars (q : Nat × Task) :
    Nat × String × String × Bool × Option Bool × Option Priority × Option Int ×
      Option String × Int × Option Int :=
  (q.1, scalars q.2)

mutual

def flattenDT : Nat → Task → List (Nat × Task)
  | d, .mk i tx dn c ch p du n ca co =>
      (d, .mk i tx dn c ch p du n ca co) :: flattenDF (d + 1) ch

def flattenDF : Nat → List Task → List (Nat × Task)
  | _, [] => []
  | d, t :: ts => flattenDT d t ++ flattenDF d ts

end

/-! ### Source functions -/

/- Function `flattenTasks` (App.tsx): depth-first pre-order flattening. -/
mutual

def flattenT : Task → List Task
  | .mk i tx d c ch p du n ca co =>
      .mk i tx d c ch p du n ca co :: flattenF ch

def flattenF : List Task → List Task
  | [] => []
  | t :: ts => flattenT t ++ flattenF ts

end

def flattenTasks (tasks : List Task) : List Task := flattenF tasks

/-- Ids of all nodes of a forest, in pre-order (instrumentation). -/
def idsF (l : List Task) : List String := (flattenF l).map Task.id

/- Function `clone` (App.tsx): `{...t, children: t.children.map(clone)}`. -/
mutual

def cloneT : Task → Task
  | .mk i tx d c ch p du n ca co => .mk i tx d c (cloneF ch) p du n ca co

def cloneF : List Task → List Task
  | [] => []
  | t :: ts => cloneT t :: cloneF ts

end

def clone (t : Task) : Task := cloneT t

/- Function `mapTasks` (App.tsx): `arr.map((t) => ({ ...f(t), children: mapTasks(t.children, f) }))`. -/
mutual

def mapT (f : Task → Task) : Task → Task
  | .mk i tx d c ch p du n ca co =>
      setChildren (f (.mk i tx d c ch p du n ca co)) (mapF f ch)

def mapF (f : Task → Task) : List Task → List Task
  | [] => []
  | t :: ts => mapT f t :: mapF f ts

end

def mapTasks (arr : List Task) (f : Task → Task) : List Task := mapF f arr

/- Function `findById` (App.tsx): first match in depth-first pre-order. -/
mutual

def findT (i : String) : Task → Option Task
  | .mk id tx d c ch p du n ca co =>
      if id = i then some (.mk id tx d c ch p du n ca co) else findF i ch

def findF (i : String) : List Task → Option Task
  | [] => none
  | t :: ts => (findT i t).orElse (fun _ => findF i ts)

end

def findById (arr : List Task) (i : String) : Option Task := findF i arr

/-- Result record of `removeById`: `{ removed, rest }`. -/
structure RemoveResult where
  removed : Option Task
  rest : List Task

/- Function `removeById` (App.tsx).  The source iterates left to right, with
a mutable `removed` slot that each later match overwrites; a matching node
is skipped (together with its whole subtree) and a node whose children
contained a match is rebuilt with the pruned children.  The recursion below
processes the head first, so the tail's match (a later assignment in the
loop) takes precedence in the `removed` slot. -/
mutual

def removeT (i : String) : Task → Option Task × Task
  | .mk id tx d c ch p du n ca co =>
      let sub := removeF i ch
      (sub.removed, .mk id tx d c sub.rest p du n ca co)

def removeF (i : String) : List Task → RemoveResult
  | [] => ⟨none, []⟩
  | t :: ts =>
      let tail := removeF i ts
      if t.id = i then
        ⟨tail.removed.orElse (fun _ => some (cloneT t)), tail.rest⟩
      else
        let sub := removeT i t
        match sub.1 with
        | some r => ⟨tail.removed.orElse (fun _ => some r), sub.2 :: tail.rest⟩
        | none => ⟨tail.removed, t :: tail.rest⟩

end

def removeById (arr : List Task) (i : String) : RemoveResult := removeF i arr

/- Function `insertChild` (App.tsx): append `child` to the children of every
node whose id is `parentId`; a matching node's own children are not
searched further. -/
mutual

def insertT (pid : String) (c : Task) : Task → Task
  | .mk i tx d cl ch p du n ca co =>
      if i = pid then .mk i tx d cl (ch ++ [c]) p du n ca co
      else .mk i tx d cl (insertF pid c ch) p du n ca co

def insertF (pid : String) (c : Task) : List Task → List Task
  | [] => []
  | t :: ts => insertT pid c t :: insertF pid c ts

end

def insertChild (arr : List Task) (parentId : String) (child : Task) : List Task :=
  insertF parentId child arr

/-- Function `isDescendant` (App.tsx): find the ancestor, then search only its
`children` subtrees for the candidate. -/
def isDescendant (arr : List Task) (ancestorId maybeDescendantId : String) : Bool :=
  match findById arr ancestorId with
  | none => false
  | some a => (findById a.children maybeDescendantId).isSome

/-- Function `dropAsChild` (App.tsx): the composite drag-and-drop reparent. -/
def dropAsChild (prev : List Task) (parentId draggedId : String) : List Task :=
  if isDescendant prev draggedId parentId then prev
  else
    match removeById prev draggedId with
    | ⟨none, _⟩ => prev
    | ⟨some removed, rest⟩ => insertChild rest parentId removed

/-- Update applied to each node by `toggleDone` (App.tsx):
`isNowDone = !t.done; {...t, done: isNowDone, completedAt: isNowDone ? new Date() : undefined}`
on the matching node, identity elsewhere (`new Date()` injected as `now`). -/
def toggleFn (i : String) (now : Int) (t : Task) : Task :=
  if t.id = i then setDoneCompleted t (!t.done) (if !t.done then some now else none)
  else t

/-- Function `toggleDone` (App.tsx): flip `done` and set/clear `completedAt` in the
same update. -/
def toggleDone (prev : List Task) (i : String) (now : Int) : List Task :=
  mapTasks prev (toggleFn i now)

/-- Function `create` (App.tsx): append a fresh root; `crypto.randomUUID()` and
`new Date()` are injected as `id` and `now`. -/
def create (prev : List Task) (text : String) (priority : Option Priority)
    (due : Option Int) (note : Option String) (id : String) (now : Int) :
    List Task :=
  prev ++ [Task.mk id text false none [] priority due note now none]

/-! ### Sorting (`sortedTasks` in App.tsx) -/

inductive SortKey where
  | dueDate | priority | createdAt
deriving DecidableEq, Repr

inductive SortOrder where
  | asc | desc
deriving DecidableEq, Repr

/-- Constant `priorityOrder` (App.tsx): `{ high: 3, medium: 2, low: 1 }`. -/
def priorityOrder : Priority → Int
  | .high => 3
  | .medium => 2
  | .low => 1

/-- Expression `a.priority ? priorityOrder[a.priority] : 0`. -/
def prioVal : Option Priority → Int
  | some p => priorityOrder p
  | none => 0

/-- The `comparison` computed by the sort callback in `sortedTasks`.
For `dueDate` a missing date is `Infinity`; only the sign of the result is
ever used, so `Infinity - x` is modelled as `1`, `x - Infinity` as `-1`,
and `Infinity - Infinity` (`NaN`, which `Array.prototype.sort` treats as
equal) as `0`. -/
def comparison (key : SortKey) (a b : Task) : Int :=
  match key with
  | .dueDate =>
      match a.due, b.due with
      | some da, some db => da - db
      | some _, none => -1
      | none, some _ => 1
      | none, none => 0
  | .priority => prioVal b.priority - prioVal a.priority
  | .createdAt => b.createdAt - a.createdAt

/-- Expression of the source: `sortOrder === 'asc' ? comparison : -comparison`. -/
def cmpOrdered (key : SortKey) (order : SortOrder) (a b : Task) : Int :=
  match order with
  | .asc => comparison key a b
  | .desc => -comparison key a b

/-- Relation modelling `Array.prototype.sort`: is a stable sort: element `a` stays before `b`
whenever the comparator result is `≤ 0`.  We model it with Mathlib's
stable `List.insertionSort` over this relation. -/
def sortLe (key : SortKey) (order : SortOrder) (a b : Task) : Prop :=
  cmpOrdered key order a b ≤ 0

instance (key : SortKey) (order : SortOrder) (a b : Task) :
    Decidable (sortLe key order a b) :=
  inferInstanceAs (Decidable (cmpOrdered key order a b ≤ 0))

/- Function `sortedTasks` (App.tsx): every sibling sequence sorted
independently, recursively.  The source sorts a level and then recurses
into the sorted elements' children; here the children are sorted first
(structural recursion) and the siblings afterwards — the same result, since
the comparator never reads `children`. -/
mutual

def sortT (key : SortKey) (order : SortOrder) : Task → Task
  | .mk i tx d cl ch p du n ca co =>
      .mk i tx d cl (List.insertionSort (sortLe key order) (sortMapF key order ch))
        p du n ca co

def sortMapF (key : SortKey) (order : SortOrder) : List Task → List Task
  | [] => []
  | t :: ts => sortT key order t :: sortMapF key order ts

end

def sortedTasks (tasks : List Task) (key : SortKey) (order : SortOrder) : List Task :=
  List.insertionSort (sortLe key order) (sortMapF key order tasks)

/-! ### Filtering (`filterTasks` in TaskTree.tsx) -/

/- Function `predOrHasDescendant` (TaskTree.tsx): `pred(t) || t.children.some(predOrHasDescendant)`. -/
mutual

def predOrHasDescendantT (pred : Task → Bool) : Task → Bool
  | .mk i tx d c ch p du n ca co =>
      pred (.mk i tx d c ch p du n ca co) || predOrHasDescendantF pred ch

def predOrHasDescendantF (pred : Task → Bool) : List Task → Bool
  | [] => false
  | t :: ts => predOrHasDescendantT pred t || predOrHasDescendantF pred ts

end

/- Function `visit` (TaskTree.tsx): the body is
`arr.map((t) => ({...t, children: visit(t.children)})).filter(predOrHasDescendant)`. -/
mutual

def visitT (pred : Task → Bool) : Task → Task
  | .mk i tx d cl ch p du n ca co =>
      .mk i tx d cl ((visitMapF pred ch).filter (predOrHasDescendantT pred))
        p du n ca co

def visitMapF (pred : Task → Bool) : List Task → List Task
  | [] => []
  | t :: ts => visitT pred t :: visitMapF pred ts

end

def filterTasks (tasks : List Task) (pred : Task → Bool) : List Task :=
  (visitMapF pred tasks).filter (predOrHasDescendantT pred)

/-! ### Report classification (`handleOpenReportModal` in App.tsx) -/

/-- Record `ReportAnalysis` (DailyReportModal): the two buckets. -/
structure ReportAnalysis where
  completedTasks : List Task
  problemTasks : List Task

def msPerDay : Int := 24 * 60 * 60 * 1000

/-- The pure classification inside `handleOpenReportModal` (App.tsx):
flatten the forest, then
`completedTasks = allTasks.filter(t => t.done && t.completedAt && t.completedAt > twentyFourHoursAgo)` and
`problemTasks = allTasks.filter(t => !t.done && t.due && (new Date(t.due) < now || new Date(t.due) < threeDaysFromNow))`. -/
def reportAnalysisOf (tasks : List Task) (now : Int) : ReportAnalysis :=
  let allTasks := flattenTasks tasks
  let twentyFourHoursAgo := now - msPerDay
  let threeDaysFromNow := now + 3 * msPerDay
  ⟨allTasks.filter (fun t =>
      t.done && (match t.completedAt with
                 | some c => decide (twentyFourHoursAgo < c)
                 | none => false)),
   allTasks.filter (fun t =>
      !t.done && (match t.due with
                  | some d => decide (d < now) || decide (d < threeDaysFromNow)
                  | none => false))⟩

/-! ### Spec-side definitions used in the claim statements -/

/-- Relation `Subforest r l`: `r` is obtained from `l` by deleting some
nodes while keeping the relative order of the remaining siblings at every
level; every kept node keeps all its scalar fields, and its children are
related the same way.  This is the shape of result that a
keep-self-or-descendant filter must produce. -/
inductive Subforest : List Task → List Task → Prop where
  | nil : Subforest [] []
  | skip (t : Task) {r l : List Task} : Subforest r l → Subforest r (t :: l)
  | keep (t' t : Task) {r l : List Task} : scalars t' = scalars t →
      Subforest t'.children t.children → Subforest r l → Subforest (t' :: r) (t :: l)

/-- Sibling order that the priority sort actually establishes:
`asc` sorts by descending numeric priority (high first), `desc` by
ascending numeric priority (absent first). -/
def prioRel : SortOrder → Task → Task → Prop
  | .asc => fun a b => prioVal b.priority ≤ prioVal a.priority
  | .desc => fun a b => prioVal a.priority ≤ prioVal b.priority

/-! ### Concrete inputs for witnesses and counterexamples -/

def lostA : Task := Task.mk "a" "a" false none [] none none none 0 none

def lostB : Task := Task.mk "b" "b" false none [] none none none 0 none

def cw2B : Task := Task.mk "b" "child" false none [] none none none 1 none

def cw2A : Task := Task.mk "a" "parent" false none [cw2B] none none none 0 none

def exSelf : Task := Task.mk "x" "self" false none [] none none none 0 none

def cex4B : Task := Task.mk "b" "done child" true none [] none none none 1 none

def cex4A : Task := Task.mk "a" "pending parent" false none [cex4B] none none none 0 none

def s5lo : Task := Task.mk "lo" "no priority" false none [] none none none 0 none

def s5hi : Task := Task.mk "hi" "high priority" false none [] (some .high) none none 1 none

def n6 : Task := Task.mk "n" "first child" false none [] none none none 1 none

def m6 : Task := Task.mk "m" "second child" false none [] none none none 2 none

def p6 : Task := Task.mk "p" "parent" false none [n6, m6] none none none 0 none

def r9 : Task := Task.mk "r" "due now" false none [] none (some 50) none 0 none

/-! ### Basic lemmas about the data model -/

@[simp] theorem Task.id_mk (i tx d c ch p du n ca co) :
    (Task.mk i tx d c ch p du n ca co).id = i := rfl

@[simp] theorem Task.text_mk (i tx d c ch p du n ca co) :
    (Task.mk i tx d c ch p du n ca co).text = tx := rfl

@[simp] theorem Task.done_mk (i tx d c ch p du n ca co) :
    (Task.mk i tx d c ch p du n ca co).done = d := rfl

@[simp] theorem Task.collapsed_mk (i tx d c ch p du n ca co) :
    (Task.mk i tx d c ch p du n ca co).collapsed = c := rfl

@[simp] theorem Task.children_mk (i tx d c ch p du n ca co) :
    (Task.mk i tx d c ch p du n ca co).children = ch := rfl

@[simp] theorem Task.priority_mk (i tx d c ch p du n ca co) :
    (Task.mk i tx d c ch p du n ca co).priority = p := rfl

@[simp] theorem Task.due_mk (i tx d c ch p du n ca co) :
    (Task.mk i tx d c ch p du n ca co).due = du := rfl

@[simp] theorem Task.note_mk (i tx d c ch p du n ca co) :
    (Task.mk i tx d c ch p du n ca co).note = n := rfl

@[simp] theorem Task.createdAt_mk (i tx d c ch p du n ca co) :
    (Task.mk i tx d c ch p du n ca co).createdAt = ca := rfl

@[simp] theorem Task.completedAt_mk (i tx d c ch p du n ca co) :
    (Task.mk i tx d c ch p du n ca co).completedAt = co := rfl

@[simp] theorem setChildren_mk (i tx d c ch p du n ca co ch') :
    setChildren (Task.mk i tx d c ch p du n ca co) ch' = Task.mk i tx d c ch' p du n ca co := rfl

@[simp] theorem id_setChildren (t ch) : (setChildren t ch).id = t.id := by cases t; rfl

@[simp] theorem children_setChildren (t ch) : (setChildren t ch).children = ch := by cases t; rfl

@[simp] theorem scalars_setChildren (t ch) : scalars (setChildren t ch) = scalars t := by cases t; rfl

@[simp] theorem core_setChildren (t ch) : core (setChildren t ch) = core t := by cases t; rfl

@[simp] theorem doneInfo_setChildren (t ch) : doneInfo (setChildren t ch) = doneInfo t := by cases t; rfl

@[simp] theorem setChildren_self (t) : setChildren t t.children = t := by cases t; rfl

@[simp] theorem done_setDoneCompleted (t d co) : (setDoneCompleted t d co).done = d := by cases t; rfl

@[simp] theorem completedAt_setDoneCompleted (t d co) :
    (setDoneCompleted t d co).completedAt = co := by cases t; rfl

@[simp] theorem id_setDoneCompleted (t d co) : (setDoneCompleted t d co).id = t.id := by cases t; rfl

@[simp] theorem children_setDoneCompleted (t d co) :
    (setDoneCompleted t d co).children = t.children := by cases t; rfl

@[simp] theorem core_setDoneCompleted (t d co) : core (setDoneCompleted t d co) = core t := by cases t; rfl

@[simp] theorem doneInfo_setDoneCompleted (t d co) :
    doneInfo (setDoneCompleted t d co) = (d, co) := by cases t; rfl

/-! ### Flattening lemmas -/

@[simp] theorem flattenT_def (t : Task) : flattenT t = t :: flattenF t.children := by cases t; rfl

@[simp] theorem flattenF_nil : flattenF [] = [] := rfl

@[simp] theorem flattenF_cons (t ts) : flattenF (t :: ts) = flattenT t ++ flattenF ts := rfl

theorem flattenF_append (l₁ l₂ : List Task) :
    flattenF (l₁ ++ l₂) = flattenF l₁ ++ flattenF l₂ := by
  induction l₁ with
  | nil => rfl
  | cons t ts ih => simp [ih]

theorem mem_flattenT_self (t : Task) : t ∈ flattenT t := by
  rw [flattenT_def]; exact List.mem_cons_self _ _

theorem mem_flattenF_iff {x : Task} {l : List Task} :
    x ∈ flattenF l ↔ ∃ u ∈ l, x ∈ flattenT u := by
  induction l with
  | nil => simp
  | cons t ts ih =>
      rw [flattenF_cons, List.mem_append, ih]
      constructor
      · rintro (h | ⟨u, hu, hx⟩)
        · exact ⟨t, List.mem_cons_self _ _, h⟩
        · exact ⟨u, List.mem_cons_of_mem _ hu, hx⟩
      · rintro ⟨u, hu, hx⟩
        rcases List.mem_cons.mp hu with rfl | hu
        · exact Or.inl hx
        · exact Or.inr ⟨u, hu, hx⟩

mutual

theorem mem_flatten_transT {x y : Task} (t : Task) (hy : y ∈ flattenT t)
    (hx : x ∈ flattenF y.children) : x ∈ flattenT t := by
  match t with
  | .mk i tx d c ch p du n ca co =>
      rw [flattenT_def, Task.children_mk] at hy ⊢
      rcases List.mem_cons.mp hy with rfl | hy
      · exact List.mem_cons_of_mem _ hx
      · exact List.mem_cons_of_mem _ (mem_flatten_transF ch hy hx)

theorem mem_flatten_transF {x y : Task} (l : List Task) (hy : y ∈ flattenF l)
    (hx : x ∈ flattenF y.children) : x ∈ flattenF l := by
  match l with
  | [] => simp at hy
  | t :: ts =>
      rw [flattenF_cons, List.mem_append] at hy ⊢
      rcases hy with hy | hy
      · exact Or.inl (mem_flatten_transT t hy hx)
      · exact Or.inr (mem_flatten_transF ts hy hx)

end

/-! ### Ids and uniqueness -/

def idsT (t : Task) : List String := (flattenT t).map Task.id

theorem idsT_def (t : Task) : idsT t = t.id :: idsF t.children := by
  rw [idsT, flattenT_def]; rfl

theorem idsF_nil : idsF [] = [] := rfl

theorem idsF_cons (t ts) : idsF (t :: ts) = idsT t ++ idsF ts := by
  rw [idsF, flattenF_cons, List.map_append]; rfl

theorem idsF_append (l₁ l₂ : List Task) : idsF (l₁ ++ l₂) = idsF l₁ ++ idsF l₂ := by
  rw [idsF, flattenF_append, List.map_append]; rfl

theorem mem_idsF_of_mem {x : Task} {l : List Task} (h : x ∈ flattenF l) : x.id ∈ idsF l :=
  List.mem_map_of_mem Task.id h

theorem nodup_cons_parts {t : Task} {ts : List Task} (h : (idsF (t :: ts)).Nodup) :
    t.id ∉ idsF t.children ∧ t.id ∉ idsF ts ∧ (idsF t.children).Nodup ∧
      (idsF ts).Nodup ∧ ∀ x ∈ idsF t.children, x ∉ idsF ts := by
  rw [idsF_cons, idsT_def, List.cons_append] at h
  rcases List.nodup_cons.mp h with ⟨hni, hrest⟩
  rw [List.mem_append] at hni
  rcases List.nodup_append.mp hrest with ⟨h₁, h₂, hdisj⟩
  exact ⟨fun hc => hni (Or.inl hc), fun hc => hni (Or.inr hc), h₁, h₂, hdisj⟩

/-! ### Clone is the identity -/

mutual

theorem cloneT_eq (t : Task) : cloneT t = t := by
  match t with
  | .mk i tx d c ch p du n ca co =>
      rw [cloneT, cloneF_eq]

theorem cloneF_eq (l : List Task) : cloneF l = l := by
  match l with
  | [] => rfl
  | t :: ts => rw [cloneF, cloneT_eq, cloneF_eq]

end

/-! ### Lemmas about findById -/

theorem findT_def (i : String) (t : Task) :
    findT i t = if t.id = i then some t else findF i t.children := by cases t; rfl

theorem findF_cons (i : String) (t ts) :
    findF i (t :: ts) = (findT i t).orElse (fun _ => findF i ts) := rfl

theorem someOrElse {α : Type} (a : α) (f : Unit → Option α) : (some a).orElse f = some a := rfl

theorem noneOrElse {α : Type} (f : Unit → Option α) : (none : Option α).orElse f = f () := rfl

mutual

theorem findT_eq_none {i : String} (t : Task) : findT i t = none ↔ i ∉ idsT t := by
  match t with
  | .mk id tx d c ch p du n ca co =>
      rw [findT_def, idsT_def]
      simp only [Task.id_mk, Task.children_mk, List.mem_cons]
      by_cases hid : id = i
      · simp [hid]
      · rw [if_neg hid, findF_eq_none ch]
        constructor
        · rintro hn (rfl | hmem)
          · exact hid rfl
          · exact hn hmem
        · intro hn hmem
          exact hn (Or.inr hmem)

theorem findF_eq_none {i : String} (l : List Task) : findF i l = none ↔ i ∉ idsF l := by
  match l with
  | [] => simp [findF, idsF_nil]
  | t :: ts =>
      rw [findF_cons, idsF_cons]
      cases h : findT i t with
      | some a =>
          rw [someOrElse]
          have hmem : i ∈ idsT t := by
            by_contra hc
            rw [(findT_eq_none t).mpr hc] at h
            exact absurd h (by simp)
          exact iff_of_false (by simp) (not_not_intro (List.mem_append_left _ hmem))
      | none =>
          rw [noneOrElse, findF_eq_none ts]
          have ht := (findT_eq_none t).mp h
          rw [List.mem_append, not_or]
          exact ⟨fun hn => ⟨ht, hn⟩, fun hn => hn.2⟩

end

mutual

theorem findT_some {i : String} {a : Task} (t : Task) (h : findT i t = some a) :
    a ∈ flattenT t ∧ a.id = i := by
  match t with
  | .mk id tx d c ch p du n ca co =>
      rw [findT_def] at h
      by_cases hid : (Task.mk id tx d c ch p du n ca co).id = i
      · rw [if_pos hid] at h
        cases h
        exact ⟨mem_flattenT_self _, hid⟩
      · rw [if_neg hid] at h
        simp only [Task.children_mk] at h
        obtain ⟨hm, hi⟩ := findF_some ch h
        refine ⟨?_, hi⟩
        rw [flattenT_def]
        exact List.mem_cons_of_mem _ (by simpa using hm)

theorem findF_some {i : String} {a : Task} (l : List Task) (h : findF i l = some a) :
    a ∈ flattenF l ∧ a.id = i := by
  match l with
  | [] => simp [findF] at h
  | t :: ts =>
      rw [findF_cons] at h
      cases ht : findT i t with
      | some b =>
          rw [ht, someOrElse] at h
          cases h
          obtain ⟨hm, hi⟩ := findT_some t ht
          exact ⟨by rw [flattenF_cons, List.mem_append]; exact Or.inl hm, hi⟩
      | none =>
          rw [ht, noneOrElse] at h
          obtain ⟨hm, hi⟩ := findF_some ts h
          exact ⟨by rw [flattenF_cons, List.mem_append]; exact Or.inr hm, hi⟩

end

mutual

theorem findT_of_mem {a : Task} (t : Task) (hN : (idsT t).Nodup) (ha : a ∈ flattenT t) :
    findT a.id t = some a := by
  match t with
  | .mk id tx d c ch p du n ca co =>
      rw [findT_def]
      rw [flattenT_def, Task.children_mk] at ha
      rw [idsT_def, Task.id_mk, Task.children_mk] at hN
      rcases List.mem_cons.mp ha with rfl | ha
      · rw [if_pos rfl]
      · have hne : id ≠ a.id := by
          intro hc
          exact (List.nodup_cons.mp hN).1 (hc ▸ mem_idsF_of_mem ha)
        rw [Task.id_mk, if_neg hne, Task.children_mk]
        exact findF_of_mem ch (List.nodup_cons.mp hN).2 ha

theorem findF_of_mem {a : Task} (l : List Task) (hN : (idsF l).Nodup) (ha : a ∈ flattenF l) :
    findF a.id l = some a := by
  match l with
  | [] => simp at ha
  | t :: ts =>
      rw [findF_cons]
      rw [flattenF_cons, List.mem_append] at ha
      rw [idsF_cons] at hN
      obtain ⟨hN₁, hN₂, hdisj⟩ := List.nodup_append.mp hN
      rcases ha with ha | ha
      · rw [findT_of_mem t hN₁ ha, someOrElse]
      · have hnone : findT a.id t = none := by
          rw [findT_eq_none]
          intro hc
          exact hdisj hc (by simpa [idsF] using List.mem_map_of_mem Task.id ha)
        rw [hnone, noneOrElse]
        exact findF_of_mem ts hN₂ ha

end

/-! ### Lemmas about removeById -/

theorem removeF_cons (i : String) (t ts) :
    removeF i (t :: ts) =
      if t.id = i then
        ⟨(removeF i ts).removed.orElse (fun _ => some (cloneT t)), (removeF i ts).rest⟩
      else
        match (removeT i t).1 with
        | some r =>
            ⟨(removeF i ts).removed.orElse (fun _ => some r),
              (removeT i t).2 :: (removeF i ts).rest⟩
        | none => ⟨(removeF i ts).removed, t :: (removeF i ts).rest⟩ := rfl

theorem removeT_def (i : String) (t : Task) :
    removeT i t = ((removeF i t.children).removed,
      setChildren t (removeF i t.children).rest) := by cases t; rfl

mutual

theorem removeT_noop {i : String} (t : Task) (h : i ∉ idsT t) : removeT i t = (none, t) := by
  match t with
  | .mk id tx d c ch p du n ca co =>
      rw [idsT_def, Task.id_mk, Task.children_mk, List.mem_cons, not_or] at h
      rw [removeT_def, Task.children_mk, removeF_noop ch h.2]
      simp

theorem removeF_noop {i : String} (l : List Task) (h : i ∉ idsF l) : removeF i l = ⟨none, l⟩ := by
  match l with
  | [] => rfl
  | t :: ts =>
      rw [idsF_cons, List.mem_append, not_or] at h
      have hne : t.id ≠ i := by
        intro hc
        exact h.1 (hc ▸ (by rw [idsT_def]; exact List.mem_cons_self _ _))
      rw [removeF_cons, if_neg hne, removeT_noop t h.1, removeF_noop ts h.2]

end

theorem removeF_append {i : String} (c l : List Task) (h : i ∉ idsF c) :
    removeF i (c ++ l) = ⟨(removeF i l).removed, c ++ (removeF i l).rest⟩ := by
  induction c with
  | nil => simp
  | cons u c ih =>
      rw [idsF_cons, List.mem_append, not_or] at h
      have hne : u.id ≠ i := by
        intro hc
        exact h.1 (hc ▸ (by rw [idsT_def]; exact List.mem_cons_self _ _))
      rw [List.cons_append, removeF_cons, if_neg hne, removeT_noop u h.1, ih h.2]
      rfl

theorem removeF_last {n : Task} (c : List Task) (h : n.id ∉ idsF c) :
    removeF n.id (c ++ [n]) = ⟨some n, c⟩ := by
  rw [removeF_append c [n] h]
  have h1 : removeF n.id [n] = ⟨some n, []⟩ := by
    rw [removeF_cons, if_pos rfl, cloneT_eq]
    rfl
  rw [h1]
  simp

/-! ### Lemmas about insertChild -/

theorem insertT_def (pid : String) (x t) :
    insertT pid x t = if t.id = pid then setChildren t (t.children ++ [x])
      else setChildren t (insertF pid x t.children) := by
  cases t
  rw [insertT]
  split <;> simp_all

theorem insertF_cons (pid : String) (x t ts) :
    insertF pid x (t :: ts) = insertT pid x t :: insertF pid x ts := rfl

mutual

theorem insertT_noop {pid : String} {x : Task} (t : Task) (h : pid ∉ idsT t) :
    insertT pid x t = t := by
  match t with
  | .mk id tx d c ch p du n ca co =>
      rw [idsT_def, Task.id_mk, Task.children_mk, List.mem_cons, not_or] at h
      rw [insertT_def, Task.id_mk]
      have hne : id ≠ pid := fun hc => h.1 hc.symm
      rw [if_neg hne, Task.children_mk, insertF_noop ch h.2]
      simp

theorem insertF_noop {pid : String} {x : Task} (l : List Task) (h : pid ∉ idsF l) :
    insertF pid x l = l := by
  match l with
  | [] => rfl
  | t :: ts =>
      rw [idsF_cons, List.mem_append, not_or] at h
      rw [insertF_cons, insertT_noop t h.1, insertF_noop ts h.2]

end

/-! ### Lemmas about mapTasks and the flattenings -/

theorem flattenDT_def (d : Nat) (t : Task) :
    flattenDT d t = (d, t) :: flattenDF (d + 1) t.children := by cases t; rfl

theorem flattenDF_nil (d : Nat) : flattenDF d [] = [] := rfl

theorem flattenDF_cons (d : Nat) (t ts) :
    flattenDF d (t :: ts) = flattenDT d t ++ flattenDF d ts := rfl

theorem flattenDF_append (d : Nat) (l₁ l₂ : List Task) :
    flattenDF d (l₁ ++ l₂) = flattenDF d l₁ ++ flattenDF d l₂ := by
  induction l₁ with
  | nil => rfl
  | cons t ts ih => rw [List.cons_append, flattenDF_cons, flattenDF_cons, ih, List.append_assoc]

theorem mapT_def (g : Task → Task) (t : Task) :
    mapT g t = setChildren (g t) (mapF g t.children) := by cases t; rfl

theorem mapF_cons (g : Task → Task) (t ts) : mapF g (t :: ts) = mapT g t :: mapF g ts := rfl

theorem children_mapT (g t) : (mapT g t).children = mapF g t.children := by
  rw [mapT_def, children_setChildren]

theorem id_mapT (g t) : (mapT g t).id = (g t).id := by rw [mapT_def, id_setChildren]

theorem done_mapT (g t) : (mapT g t).done = (g t).done := by
  rw [mapT_def]; cases g t; rfl

theorem core_mapT (g t) : core (mapT g t) = core (g t) := by rw [mapT_def, core_setChildren]

theorem doneInfo_mapT (g t) : doneInfo (mapT g t) = doneInfo (g t) := by
  rw [mapT_def, doneInfo_setChildren]

mutual

theorem flattenDT_mapT (g : Task → Task) (d : Nat) (t : Task) :
    flattenDT d (mapT g t) = (flattenDT d t).map (fun q => (q.1, mapT g q.2)) := by
  match t with
  | .mk i tx dn c ch p du n ca co =>
      rw [flattenDT_def, flattenDT_def, children_mapT, Task.children_mk,
        flattenDF_mapF g (d + 1) ch, List.map_cons]

theorem flattenDF_mapF (g : Task → Task) (d : Nat) (l : List Task) :
    flattenDF d (mapF g l) = (flattenDF d l).map (fun q => (q.1, mapT g q.2)) := by
  match l with
  | [] => rfl
  | t :: ts =>
      rw [mapF_cons, flattenDF_cons, flattenDF_cons, List.map_append,
        flattenDT_mapT g d t, flattenDF_mapF g d ts]

end

mutual

theorem flattenT_mapT (g : Task → Task) (t : Task) :
    flattenT (mapT g t) = (flattenT t).map (mapT g) := by
  match t with
  | .mk i tx dn c ch p du n ca co =>
      rw [flattenT_def, flattenT_def, children_mapT, Task.children_mk,
        flattenF_mapF g ch, List.map_cons]

theorem flattenF_mapF (g : Task → Task) (l : List Task) :
    flattenF (mapF g l) = (flattenF l).map (mapT g) := by
  match l with
  | [] => rfl
  | t :: ts =>
      rw [mapF_cons, flattenF_cons, flattenF_cons, List.map_append,
        flattenT_mapT g t, flattenF_mapF g ts]

end

/-! ### Claim C1 -/

/-- Claim C1: the claim states that `dropAsChild` (the reparent operation)
is all-or-nothing, and in particular that when `draggedId = targetParentId`
or when no node carries `targetParentId` the forest is returned unchanged.
The code violates this: in both situations the guard does not fire, the
dragged node is removed, and `insertChild` silently fails to reattach it,
so the node is deleted.  This theorem evaluates the code at both failing
inputs: dropping the only root `a` onto itself yields the empty forest, and
dropping `b` onto the absent id `zzz` deletes `b`. -/
theorem dropAsChild_data_loss_evaluation :
    dropAsChild [lostA] "a" "a" = [] ∧
      dropAsChild [lostA, lostB] "zzz" "b" = [lostA] :=
  ⟨rfl, rfl⟩

/-! ### Claim C2 -/

/-- Claim C2: dropping a node `a` onto any node `b` of the subtrees below
it (a descendant at any depth, including a direct child) is rejected and
returns the forest unchanged, so reparenting never introduces a cycle.
Stated under the forest invariant that ids are unique. -/
theorem dropAsChild_onto_descendant_unchanged (f : List Task) (a b : Task)
    (hN : (idsF f).Nodup) (ha : a ∈ flattenF f) (hb : b ∈ flattenF a.children) :
    dropAsChild f b.id a.id = f := by
  have hguard : isDescendant f a.id b.id = true := by
    rw [isDescendant]
    unfold findById
    rw [findF_of_mem f hN ha]
    rw [Option.isSome_iff_ne_none, Ne, findF_eq_none]
    exact not_not_intro (mem_idsF_of_mem hb)
  rw [dropAsChild, if_pos hguard]

/-- Witness for C2 at a concrete forest: the parent `a` with child `b`
cannot be dropped onto `b`. -/
theorem dropAsChild_onto_descendant_unchanged_witness :
    dropAsChild [cw2A] "b" "a" = [cw2A] :=
  dropAsChild_onto_descendant_unchanged [cw2A] cw2A cw2B (by decide)
    (List.Mem.head _) (List.Mem.head _)

/-! ### Claim C7 -/

/-- Counterexample for C7 as stated: `create` performs no duplicate-id
check and raises no DuplicateIdError; with an id that already exists it
simply produces a forest that contains the id twice. -/
theorem create_duplicate_id_counterexample :
    idsF (create [lostA] "again" none none none "a" 5) = ["a", "a"] ∧
      ¬ (idsF (create [lostA] "again" none none none "a" 5)).Nodup :=
  ⟨rfl, by decide⟩

/-- Claim C7 (amended): `create` appends the new node as a root at the end
of the root sequence and leaves every existing node unchanged; there is no
duplicate-id check, so when the injected id already exists the resulting
forest contains the duplicate (uniqueness is the id generator's job). -/
theorem create_appends_root (prev : List Task) (text : String) (p : Option Priority)
    (du : Option Int) (note : Option String) (id : String) (now : Int) :
    flattenDF 0 (create prev text p du note id now) =
      flattenDF 0 prev ++ [(0, Task.mk id text false none [] p du note now none)] ∧
    (id ∈ idsF prev → ¬ (idsF (create prev text p du note id now)).Nodup) := by
  constructor
  · rw [create, flattenDF_append]
    rfl
  · intro hmem hN
    rw [create, idsF_append] at hN
    obtain ⟨-, -, hdisj⟩ := List.nodup_append.mp hN
    exact hdisj hmem (by exact List.Mem.head _)

/-- Witness for C7 (amended) at a concrete duplicate id. -/
theorem create_appends_root_witness :
    ¬ (idsF (create [lostA] "again" none none none "a" 5)).Nodup :=
  (create_appends_root [lostA] "again" none none none "a" 5).2 (by decide)

/-! ### Claim C9 -/

/-- Claim C9: a flattened node lands in the `problemTasks` (at-risk) bucket
exactly when it is not done, has a due date, and that date is either
strictly before `now` or inside the 3-day window starting at `now`
(`now ≤ due < now + 3 days`); in particular a pending node due exactly at
`now` is at risk. -/
theorem reportAnalysis_atRisk_iff (l : List Task) (now : Int) (t : Task) :
    (t ∈ (reportAnalysisOf l now).problemTasks ↔
      t ∈ flattenTasks l ∧ t.done = false ∧
        ∃ d, t.due = some d ∧ (d < now ∨ (now ≤ d ∧ d < now + 3 * msPerDay))) ∧
    (t ∈ flattenTasks l → t.done = false → t.due = some now →
      t ∈ (reportAnalysisOf l now).problemTasks) := by
  have hpos : (0 : Int) < msPerDay := by norm_num [msPerDay]
  have hmain : t ∈ (reportAnalysisOf l now).problemTasks ↔
      t ∈ flattenTasks l ∧ t.done = false ∧
        ∃ d, t.due = some d ∧ (d < now ∨ (now ≤ d ∧ d < now + 3 * msPerDay)) := by
    rw [reportAnalysisOf, List.mem_filter]
    constructor
    · rintro ⟨hm, hp⟩
      rw [Bool.and_eq_true, Bool.not_eq_true'] at hp
      obtain ⟨hdone, hdue⟩ := hp
      refine ⟨hm, hdone, ?_⟩
      cases hd : t.due with
      | none => rw [hd] at hdue; exact absurd hdue (by simp)
      | some d =>
          rw [hd] at hdue
          simp only [Bool.or_eq_true, decide_eq_true_eq] at hdue
          exact ⟨d, rfl, by omega⟩
    · rintro ⟨hm, hdone, d, hd, hwin⟩
      refine ⟨hm, ?_⟩
      rw [Bool.and_eq_true, Bool.not_eq_true', hd]
      refine ⟨hdone, ?_⟩
      simp only [Bool.or_eq_true, decide_eq_true_eq]
      omega
  refine ⟨hmain, fun hm hdone hd => hmain.mpr ⟨hm, hdone, now, hd, by omega⟩⟩

/-- Witness for C9: a pending task whose due date equals `now` is in the
at-risk bucket. -/
theorem reportAnalysis_atRisk_iff_witness :
    r9 ∈ (reportAnalysisOf [r9] 50).problemTasks :=
  (reportAnalysis_atRisk_iff [r9] 50 r9).2 (List.Mem.head _) rfl rfl

/-! ### Claim C10 -/

/-- Counterexample for C10 as stated: the claim says the search covers the
subtree rooted at the ancestor including the ancestor itself, so
`candidateId = ancestorId` should give `true` whenever the ancestor exists.
The code searches only the ancestor's `children` subtrees: on the singleton
forest `[x]` the node `x` lies in the subtree rooted at `x`, yet
`isDescendant` returns `false`. -/
theorem isDescendant_self_counterexample :
    isDescendant [exSelf] "x" "x" = false ∧
      findById [exSelf] "x" = some exSelf ∧ "x" ∈ idsT exSelf :=
  ⟨rfl, rfl, by decide⟩

/-- Claim C10 (amended): under unique ids, `isDescendant forest anc cand`
is true iff the forest contains a node with id `anc` and `cand` occurs
among its strict descendants (the subtrees of its children, at any depth).
The ancestor itself is not part of the searched region, so
`cand = anc` yields `false`, and an absent ancestor yields `false`. -/
theorem isDescendant_iff (f : List Task) (anc cand : String)
    (hN : (idsF f).Nodup) :
    isDescendant f anc cand = true ↔
      ∃ a ∈ flattenF f, a.id = anc ∧ cand ∈ idsF a.children := by
  rw [isDescendant]
  unfold findById
  cases hf : findF anc f with
  | none =>
      refine iff_of_false (by simp) ?_
      rintro ⟨a, hm, rfl, -⟩
      rw [findF_of_mem f hN hm] at hf
      exact Option.noConfusion hf
  | some a0 =>
      obtain ⟨hm0, hi0⟩ := findF_some f hf
      rw [Option.isSome_iff_ne_none, Ne, findF_eq_none, not_not]
      constructor
      · intro hc
        exact ⟨a0, hm0, hi0, hc⟩
      · rintro ⟨a, hm, rfl, hc⟩
        rw [findF_of_mem f hN hm] at hf
        cases hf
        exact hc

/-- Witness for C10 (amended) on a concrete forest: `b` is a strict
descendant of `a`, and `isDescendant` reports it. -/
theorem isDescendant_iff_witness : isDescendant [cw2A] "a" "b" = true :=
  (isDescendant_iff [cw2A] "a" "b" (by decide)).mpr
    ⟨cw2A, List.Mem.head _, rfl, by decide⟩

/-! ### Claim C8 -/

theorem flattenDF_core_mapF (g : Task → Task) (hg : ∀ t, core (g t) = core t)
    (d : Nat) (f : List Task) :
    (flattenDF d (mapF g f)).map (fun q => (q.1, core q.2)) =
      (flattenDF d f).map (fun q => (q.1, core q.2)) := by
  rw [flattenDF_mapF, List.map_map]
  exact List.map_congr_left (fun q _ => by
    simp only [Function.comp_apply, core_mapT, hg])

theorem flattenF_doneInfo_mapF (g : Task → Task) (f : List Task) :
    (flattenF (mapF g f)).map doneInfo = (flattenF f).map (fun t => doneInfo (g t)) := by
  rw [flattenF_mapF, List.map_map]
  exact List.map_congr_left (fun t _ => by
    simp only [Function.comp_apply, doneInfo_mapT])

theorem id_toggleFn (i : String) (now : Int) (t : Task) : (toggleFn i now t).id = t.id := by
  rw [toggleFn]
  by_cases h : t.id = i
  · rw [if_pos h, id_setDoneCompleted]
  · rw [if_neg h]

theorem done_toggleFn (i : String) (now : Int) (t : Task) :
    (toggleFn i now t).done = if t.id = i then !t.done else t.done := by
  rw [toggleFn]
  by_cases h : t.id = i
  · rw [if_pos h, if_pos h, done_setDoneCompleted]
  · rw [if_neg h, if_neg h]

theorem core_toggleFn (i : String) (now : Int) (t : Task) : core (toggleFn i now t) = core t := by
  rw [toggleFn]
  by_cases h : t.id = i
  · rw [if_pos h, core_setDoneCompleted]
  · rw [if_neg h]

theorem doneInfo_toggleFn (i : String) (now : Int) (t : Task) :
    doneInfo (toggleFn i now t) =
      if t.id = i then (!t.done, if t.done then none else some now) else doneInfo t := by
  rw [toggleFn]
  by_cases h : t.id = i
  · rw [if_pos h, if_pos h, doneInfo_setDoneCompleted]
    cases hd : t.done
    · simp
    · simp
  · rw [if_neg h, if_neg h]

/-- Claim C8: toggling a node's `done` flag updates, in one single pass,
only that node's `done`/`completedAt` pair: every node keeps its depth,
position and all other fields (first conjunct); the toggled node gets
`done` flipped, with `completedAt` set to the toggle time when it becomes
done and cleared when it becomes undone — so `completedAt` is defined iff
`done` holds after the toggle (second conjunct; a node with `done = false`
gets `(true, some t1)`); toggling the same id again at `t2` restores the
original `done` and leaves `completedAt = none` for an initially-pending
node (third conjunct, `(t.done, none)` when `t.done = false`). -/
theorem toggleDone_spec (f : List Task) (i : String) (t1 t2 : Int) :
    ((flattenDF 0 (toggleDone f i t1)).map (fun q => (q.1, core q.2)) =
      (flattenDF 0 f).map (fun q => (q.1, core q.2))) ∧
    ((flattenF (toggleDone f i t1)).map doneInfo =
      (flattenF f).map (fun t => if t.id = i
        then (!t.done, if t.done then none else some t1) else doneInfo t)) ∧
    ((flattenF (toggleDone (toggleDone f i t1) i t2)).map doneInfo =
      (flattenF f).map (fun t => if t.id = i
        then (t.done, if t.done then some t2 else none) else doneInfo t)) := by
  refine ⟨?_, ?_, ?_⟩
  · exact flattenDF_core_mapF _ (core_toggleFn i t1) 0 f
  · rw [toggleDone, mapTasks, flattenF_doneInfo_mapF]
    exact List.map_congr_left (fun t _ => doneInfo_toggleFn i t1 t)
  · rw [toggleDone, toggleDone, mapTasks, mapTasks, flattenF_doneInfo_mapF,
      flattenF_mapF, List.map_map]
    refine List.map_congr_left (fun t _ => ?_)
    have hx := doneInfo_toggleFn i t2 (mapT (toggleFn i t1) t)
    rw [id_mapT, id_toggleFn, done_mapT, done_toggleFn] at hx
    by_cases h : t.id = i
    · rw [Function.comp_apply, hx, if_pos h, if_pos h, if_pos h, Bool.not_not]
      cases hd : t.done
      · simp [hd]
      · simp [hd]
    · rw [Function.comp_apply, hx, if_neg h, if_neg h, doneInfo_mapT,
        doneInfo_toggleFn, if_neg h]

/-! ### Claim C3 -/

mutual

theorem removeA_T {i : String} {n : Task} (t : Task) (d : Nat)
    (hN : (idsT t).Nodup) (hfind : findT i t = some n) (hne : t.id ≠ i) :
    (removeT i t).1 = some n ∧
      ∃ d0 pre post,
        (flattenDT d t).map dScalars = pre ++ (flattenDT d0 n).map dScalars ++ post ∧
        (flattenDT d (removeT i t).2).map dScalars = pre ++ post := by
  match t with
  | .mk id tx dn c ch p du nt ca co =>
      rw [findT_def, if_neg hne, Task.children_mk] at hfind
      rw [idsT_def, Task.children_mk] at hN
      obtain ⟨hrm, d0, pre, post, hsrc, hrest⟩ :=
        removeA_F ch (d + 1) (List.nodup_cons.mp hN).2 hfind
      rw [removeT_def, Task.children_mk]
      refine ⟨hrm, d0, (d, scalars (Task.mk id tx dn c ch p du nt ca co)) :: pre, post,
        ?_, ?_⟩
      · rw [flattenDT_def, Task.children_mk, List.map_cons, hsrc]
        simp [dScalars]
      · rw [flattenDT_def, children_setChildren, List.map_cons, hrest]
        simp [dScalars, scalars]

theorem removeA_F {i : String} {n : Task} (l : List Task) (d : Nat)
    (hN : (idsF l).Nodup) (hfind : findF i l = some n) :
    (removeF i l).removed = some n ∧
      ∃ d0 pre post,
        (flattenDF d l).map dScalars = pre ++ (flattenDT d0 n).map dScalars ++ post ∧
        (flattenDF d (removeF i l).rest).map dScalars = pre ++ post := by
  match l with
  | [] => exact absurd hfind (by simp [findF])
  | t :: ts =>
      obtain ⟨hnch, hnts, hNch, hNts, hdisj⟩ := nodup_cons_parts hN
      have hNT : (idsT t).Nodup := by
        rw [idsT_def]
        exact List.nodup_cons.mpr ⟨hnch, hNch⟩
      rw [findF_cons] at hfind
      cases ht : findT i t with
      | some b =>
          rw [ht, someOrElse] at hfind
          cases hfind
          have hmemT : i ∈ idsT t := by
            by_contra hc
            rw [(findT_eq_none t).mpr hc] at ht
            exact Option.noConfusion ht
          have hnotts : i ∉ idsF ts := by
            intro hc
            rw [idsT_def, List.mem_cons] at hmemT
            rcases hmemT with hii | hii
            · exact hnts (hii ▸ hc)
            · exact hdisj _ hii hc
          by_cases hid : t.id = i
          · have htn : t = n := by
              rw [findT_def, if_pos hid] at ht
              injection ht
            subst htn
            rw [removeF_cons, if_pos hid, removeF_noop ts hnotts]
            refine ⟨by simp [noneOrElse, cloneT_eq], d, [],
              (flattenDF d ts).map dScalars, ?_, by simp⟩
            rw [flattenDF_cons, List.map_append]
            simp
          · obtain ⟨hrm, d0, preT, postT, hsrcT, hrestT⟩ := removeA_T t d hNT ht hid
            rw [removeF_cons, if_neg hid, removeF_noop ts hnotts, hrm]
            refine ⟨by simp [noneOrElse], d0, preT,
              postT ++ (flattenDF d ts).map dScalars, ?_, ?_⟩
            · rw [flattenDF_cons, List.map_append, hsrcT]
              simp [List.append_assoc]
            · show (flattenDF d ((removeT i t).2 :: ts)).map dScalars = _
              rw [flattenDF_cons, List.map_append, hrestT]
              simp [List.append_assoc]
      | none =>
          rw [ht, noneOrElse] at hfind
          have hnt : i ∉ idsT t := (findT_eq_none t).mp ht
          have hne : t.id ≠ i := by
            intro hc
            exact hnt (by rw [idsT_def, hc]; exact List.mem_cons_self _ _)
          obtain ⟨hrm, d0, preR, postR, hsrcR, hrestR⟩ := removeA_F ts d hNts hfind
          rw [removeF_cons, if_neg hne, removeT_noop t hnt, hrm]
          refine ⟨rfl, d0, (flattenDT d t).map dScalars ++ preR, postR, ?_, ?_⟩
          · rw [flattenDF_cons, List.map_append, hsrcR]
            simp [List.append_assoc]
          · show (flattenDF d (t :: (removeF i ts).rest)).map dScalars = _
            rw [flattenDF_cons, List.map_append, hrestR]
            simp [List.append_assoc]

end

/-- Claim C3: when a node with the requested id exists (under the unique-id
forest invariant, with `findById` naming that node `n`), `removeById`
returns exactly `n` — whose `children` field still carries the entire
original subtree — as `removed`, and the remaining forest is the original
one with the contiguous pre-order block of `n`-and-descendants excised:
every other node keeps its depth, all its scalar fields, and its relative
order; children of the removed node disappear with it instead of being
promoted. -/
theorem removeById_found_spec (f : List Task) (i : String) (n : Task)
    (hN : (idsF f).Nodup) (hfind : findById f i = some n) :
    (removeById f i).removed = some n ∧
      ∃ d0 pre post,
        (flattenDF 0 f).map dScalars = pre ++ (flattenDT d0 n).map dScalars ++ post ∧
        (flattenDF 0 (removeById f i).rest).map dScalars = pre ++ post :=
  removeA_F f 0 hN hfind

/-- Witness for C3 at a concrete forest: removing the nested child `b`. -/
theorem removeById_found_spec_witness :
    (removeById [cw2A] "b").removed = some cw2B ∧
      ∃ d0 pre post,
        (flattenDF 0 [cw2A]).map dScalars = pre ++ (flattenDT d0 cw2B).map dScalars ++ post ∧
        (flattenDF 0 (removeById [cw2A] "b").rest).map dScalars = pre ++ post :=
  removeById_found_spec [cw2A] "b" cw2B (by decide) rfl

/-! ### Claim C6 -/

theorem mem_flattenF_of_mem {x : Task} {l : List Task} (h : x ∈ l) : x ∈ flattenF l :=
  mem_flattenF_iff.mpr ⟨x, h, mem_flattenT_self x⟩

theorem setChildren_setChildren (t : Task) (a b : List Task) :
    setChildren (setChildren t a) b = setChildren t b := by cases t; rfl

mutual

theorem roundT {p n : Task} (t : Task) (hN : (idsT t).Nodup) (hp : p ∈ flattenT t)
    (hl : p.children.getLast? = some n) :
    (removeT n.id t).1 = some n ∧ insertT p.id n (removeT n.id t).2 = t := by
  match t with
  | .mk id tx dn cl ch pr du nt ca co =>
      obtain ⟨c, hc⟩ := List.getLast?_eq_some_iff.mp hl
      have hnp : n ∈ flattenF p.children := by
        rw [hc]
        exact mem_flattenF_of_mem (List.mem_append_right c (List.mem_cons_self n []))
      rw [idsT_def, Task.children_mk] at hN
      obtain ⟨hhead, hNch⟩ := List.nodup_cons.mp hN
      rw [flattenT_def, Task.children_mk] at hp
      rcases List.mem_cons.mp hp with rfl | hp
      · -- the parent is this very node; its children end with n
        rw [removeT_def]
        have hchc : (Task.mk id tx dn cl ch pr du nt ca co).children = c ++ [n] := hc
        rw [Task.children_mk] at hchc
        subst hchc
        have hnidc : n.id ∉ idsF c := by
          intro hmem
          rw [idsF_append] at hNch
          obtain ⟨-, -, hdisj⟩ := List.nodup_append.mp hNch
          exact hdisj hmem (by
            rw [idsF_cons, idsT_def]
            exact List.mem_append_left _ (List.mem_cons_self _ _))
        rw [Task.children_mk, removeF_last c hnidc]
        refine ⟨rfl, ?_⟩
        rw [insertT_def, id_setChildren]
        rw [if_pos rfl, children_setChildren, setChildren_setChildren]
        rw [setChildren_mk]
      · -- the parent lies inside the children subtrees
        have hnch : n ∈ flattenF ch := mem_flatten_transF ch hp hnp
        obtain ⟨hrm, hins⟩ := roundF ch hNch hp hl
        rw [removeT_def, Task.children_mk]
        refine ⟨hrm, ?_⟩
        rw [insertT_def, id_setChildren, Task.id_mk]
        have hne : id ≠ p.id := by
          intro hcon
          apply hhead
          rw [Task.id_mk, hcon]
          exact mem_idsF_of_mem hp
        rw [if_neg hne, children_setChildren, setChildren_setChildren, hins]
        rw [setChildren_mk]

theorem roundF {p n : Task} (l : List Task) (hN : (idsF l).Nodup) (hp : p ∈ flattenF l)
    (hl : p.children.getLast? = some n) :
    (removeF n.id l).removed = some n ∧ insertF p.id n (removeF n.id l).rest = l := by
  match l with
  | [] => simp at hp
  | t :: ts =>
      obtain ⟨c, hc⟩ := List.getLast?_eq_some_iff.mp hl
      have hnp : n ∈ flattenF p.children := by
        rw [hc]
        exact mem_flattenF_of_mem (List.mem_append_right c (List.mem_cons_self n []))
      have hN' : (idsT t ++ idsF ts).Nodup := by rwa [idsF_cons] at hN
      obtain ⟨hNT, hNts, hdisj⟩ := List.nodup_append.mp hN'
      rw [flattenF_cons, List.mem_append] at hp
      rcases hp with hp | hp
      · -- parent (hence n) inside the head tree
        have hnt : n ∈ flattenT t := mem_flatten_transT t hp hnp
        have hnidch : n.id ∈ idsT t := List.mem_map_of_mem Task.id hnt
        have hnts : n.id ∉ idsF ts := fun hcon => hdisj hnidch hcon
        have hne : t.id ≠ n.id := by
          rcases List.mem_cons.mp (by rwa [flattenT_def] at hnt) with rfl | hin
          · -- n would be the head itself: impossible, n sits below p inside t
            rcases List.mem_cons.mp (by rwa [flattenT_def] at hp) with rfl | hpin
            · intro hcon
              rw [idsT_def] at hNT
              exact (List.nodup_cons.mp hNT).1 (hcon ▸ mem_idsF_of_mem hnp)
            · intro hcon
              rw [idsT_def] at hNT
              exact (List.nodup_cons.mp hNT).1
                (hcon ▸ mem_idsF_of_mem (mem_flatten_transF _ hpin hnp))
          · intro hcon
            rw [idsT_def] at hNT
            exact (List.nodup_cons.mp hNT).1 (hcon ▸ mem_idsF_of_mem (by
              rcases List.mem_cons.mp (by rwa [flattenT_def] at hp) with rfl | hpin
              · exact hnp
              · exact mem_flatten_transF _ hpin hnp))
        obtain ⟨hrm, hins⟩ := roundT t hNT hp hl
        rw [removeF_cons, if_neg hne, removeF_noop ts hnts, hrm]
        refine ⟨by simp [noneOrElse], ?_⟩
        show insertF p.id n ((removeT n.id t).2 :: ts) = t :: ts
        rw [insertF_cons, hins, insertF_noop ts (fun hcon =>
          hdisj (List.mem_map_of_mem Task.id hp) hcon)]
      · -- parent (hence n) inside the tail forest
        have hnts' : n ∈ flattenF ts := mem_flatten_transF ts hp hnp
        have hnid : n.id ∈ idsF ts := List.mem_map_of_mem Task.id hnts'
        have hnidT : n.id ∉ idsT t := fun hcon => hdisj hcon hnid
        have hne : t.id ≠ n.id := fun hcon =>
          hnidT (hcon ▸ (by rw [idsT_def]; exact List.mem_cons_self _ _))
        obtain ⟨hrm, hins⟩ := roundF ts hNts hp hl
        rw [removeF_cons, if_neg hne, removeT_noop t hnidT, hrm]
        refine ⟨rfl, ?_⟩
        show insertF p.id n (t :: (removeF n.id ts).rest) = t :: ts
        rw [insertF_cons, hins, insertT_noop t (fun hcon =>
          hdisj hcon (List.mem_map_of_mem Task.id hp))]

end

/-- Counterexample for C6 as stated: removing a node that is not the last
child of its parent and reinserting it with `insertChild` appends it at the
end, which permutes the sibling order, so the result is not structurally
equal to the original forest.  Here `p` has children `[n, m]`; the
round trip on `n` produces children `[m, n]`. -/
theorem removeInsert_not_identity_counterexample :
    (removeById [p6] "n").removed = some n6 ∧
      insertChild (removeById [p6] "n").rest "p" n6 ≠ [p6] :=
  ⟨rfl, fun h => absurd (congrArg idsF h) (by decide)⟩

/-- Claim C6 (amended): for a non-root node `n` that is the LAST child of
its parent `p` (under the unique-id invariant), removing `n` with
`removeById` and reinserting the removed subtree under `p` with
`insertChild` restores the original forest exactly.  For a non-last child
the round trip moves the node to the end of the sibling list instead (see
the counterexample), so structural equality is restored only modulo that
reordering. -/
theorem removeInsert_roundTrip (f : List Task) (p n : Task)
    (hN : (idsF f).Nodup) (hp : p ∈ flattenF f)
    (hl : p.children.getLast? = some n) :
    (removeById f n.id).removed = some n ∧
      insertChild (removeById f n.id).rest p.id n = f :=
  roundF f hN hp hl

/-- Witness for C6 (amended): the round trip on the last child `m` of `p`
restores the concrete forest. -/
theorem removeInsert_roundTrip_witness :
    (removeById [p6] "m").removed = some m6 ∧
      insertChild (removeById [p6] "m").rest "p" m6 = [p6] :=
  removeInsert_roundTrip [p6] p6 m6 (by decide) (List.Mem.head _) rfl

/-! ### Claim C4 -/

theorem pohdT_def (pred : Task → Bool) (t : Task) :
    predOrHasDescendantT pred t = (pred t || predOrHasDescendantF pred t.children) := by
  cases t; rfl

theorem pohdF_cons (pred : Task → Bool) (t ts) :
    predOrHasDescendantF pred (t :: ts) =
      (predOrHasDescendantT pred t || predOrHasDescendantF pred ts) := rfl

mutual

theorem pohdT_true {pred : Task → Bool} (t : Task)
    (h : predOrHasDescendantT pred t = true) : ∃ d ∈ flattenT t, pred d = true := by
  match t with
  | .mk i tx dn c ch p du n ca co =>
      rw [pohdT_def, Bool.or_eq_true, Task.children_mk] at h
      rcases h with h | h
      · exact ⟨_, mem_flattenT_self _, h⟩
      · obtain ⟨d, hd, hpd⟩ := pohdF_true ch h
        refine ⟨d, ?_, hpd⟩
        rw [flattenT_def, Task.children_mk]
        exact List.mem_cons_of_mem _ hd

theorem pohdF_true {pred : Task → Bool} (l : List Task)
    (h : predOrHasDescendantF pred l = true) : ∃ d ∈ flattenF l, pred d = true := by
  match l with
  | [] => exact absurd h (by simp [predOrHasDescendantF])
  | t :: ts =>
      rw [pohdF_cons, Bool.or_eq_true] at h
      rcases h with h | h
      · obtain ⟨d, hd, hpd⟩ := pohdT_true t h
        exact ⟨d, by rw [flattenF_cons, List.mem_append]; exact Or.inl hd, hpd⟩
      · obtain ⟨d, hd, hpd⟩ := pohdF_true ts h
        exact ⟨d, by rw [flattenF_cons, List.mem_append]; exact Or.inr hd, hpd⟩

end

theorem visitT_def (pred : Task → Bool) (t : Task) :
    visitT pred t =
      setChildren t ((visitMapF pred t.children).filter (predOrHasDescendantT pred)) := by
  cases t; rfl

theorem visitMapF_cons (pred : Task → Bool) (t ts) :
    visitMapF pred (t :: ts) = visitT pred t :: visitMapF pred ts := rfl

theorem scalars_visitT (pred : Task → Bool) (t : Task) :
    scalars (visitT pred t) = scalars t := by rw [visitT_def, scalars_setChildren]

theorem children_visitT (pred : Task → Bool) (t : Task) :
    (visitT pred t).children =
      (visitMapF pred t.children).filter (predOrHasDescendantT pred) := by
  rw [visitT_def, children_setChildren]

theorem visit_subforestF (pred : Task → Bool) :
    (l : List Task) → Subforest ((visitMapF pred l).filter (predOrHasDescendantT pred)) l
  | [] => Subforest.nil
  | (.mk i tx dn c ch p du n ca co) :: ts => by
      rw [visitMapF_cons]
      cases hq : predOrHasDescendantT pred (visitT pred (.mk i tx dn c ch p du n ca co)) with
      | true =>
          rw [List.filter_cons_of_pos hq]
          refine Subforest.keep _ _ (scalars_visitT pred _) ?_ (visit_subforestF pred ts)
          rw [children_visitT, Task.children_mk]
          exact visit_subforestF pred ch
      | false =>
          rw [List.filter_cons_of_neg (by rw [hq]; exact Bool.false_ne_true)]
          exact Subforest.skip _ (visit_subforestF pred ts)

theorem kept_pohdF (pred : Task → Bool) :
    (l : List Task) → ∀ x ∈ flattenF ((visitMapF pred l).filter (predOrHasDescendantT pred)),
      predOrHasDescendantT pred x = true
  | [] => fun x hx => absurd hx (List.not_mem_nil x)
  | (.mk i tx dn c ch p du n ca co) :: ts => by
      intro x hx
      rw [visitMapF_cons] at hx
      cases hq : predOrHasDescendantT pred (visitT pred (.mk i tx dn c ch p du n ca co)) with
      | true =>
          rw [List.filter_cons_of_pos hq, flattenF_cons, List.mem_append] at hx
          rcases hx with hx | hx
          · rw [flattenT_def, List.mem_cons] at hx
            rcases hx with rfl | hx
            · exact hq
            · rw [children_visitT, Task.children_mk] at hx
              exact kept_pohdF pred ch x hx
          · exact kept_pohdF pred ts x hx
      | false =>
          rw [List.filter_cons_of_neg (by rw [hq]; exact Bool.false_ne_true)] at hx
          exact kept_pohdF pred ts x hx

/-- Claim C4: the result of `filterTasks` is a sub-forest of the input in
which sibling order and every kept node's scalar fields are preserved
(`Subforest`), and every node present in the result either satisfies the
predicate itself or has a descendant inside the result that does — no node
failing both conditions ever appears. -/
theorem filterTasks_spec (pred : Task → Bool) (l : List Task) :
    Subforest (filterTasks l pred) l ∧
      ∀ x ∈ flattenF (filterTasks l pred),
        pred x = true ∨ ∃ d ∈ flattenF x.children, pred d = true := by
  constructor
  · exact visit_subforestF pred l
  · intro x hx
    have hp := kept_pohdF pred l x hx
    rw [pohdT_def, Bool.or_eq_true] at hp
    rcases hp with hp | hp
    · exact Or.inl hp
    · exact Or.inr (pohdF_true x.children hp)

/-- Witness for C4 at a concrete forest and predicate: the kept pending
parent has a kept descendant satisfying the predicate. -/
theorem filterTasks_spec_witness :
    Task.done cex4A = true ∨ ∃ d ∈ flattenF cex4A.children, Task.done d = true :=
  (filterTasks_spec Task.done [cex4A]).2 cex4A (List.Mem.head _)

/-! ### Claim C5 -/

theorem sortLe_priority_iff (o : SortOrder) (a b : Task) :
    sortLe .priority o a b ↔ prioRel o a b := by
  cases o
  · simp only [sortLe, cmpOrdered, comparison, prioRel]
    omega
  · simp only [sortLe, cmpOrdered, comparison, prioRel]
    omega

instance (o : SortOrder) : IsTotal Task (sortLe .priority o) :=
  ⟨fun a b => by
    rw [sortLe_priority_iff, sortLe_priority_iff]
    cases o
    · exact Int.le_total _ _
    · exact Int.le_total _ _⟩

instance (o : SortOrder) : IsTrans Task (sortLe .priority o) :=
  ⟨fun a b c hab hbc => by
    rw [sortLe_priority_iff] at hab hbc ⊢
    cases o
    · exact le_trans hbc hab
    · exact le_trans hab hbc⟩

theorem sortT_def (k : SortKey) (o : SortOrder) (t : Task) :
    sortT k o t = setChildren t (sortedTasks t.children k o) := by cases t; rfl

theorem sortMapF_cons (k : SortKey) (o : SortOrder) (t ts) :
    sortMapF k o (t :: ts) = sortT k o t :: sortMapF k o ts := rfl

theorem scalars_sortT (k o t) : scalars (sortT k o t) = scalars t := by
  rw [sortT_def, scalars_setChildren]

theorem priority_sortT (k o t) : (sortT k o t).priority = t.priority := by
  rw [sortT_def]
  cases t
  rfl

theorem children_sortT (k o t) : (sortT k o t).children = sortedTasks t.children k o := by
  rw [sortT_def, children_setChildren]

theorem mem_sortMapF {k : SortKey} {o : SortOrder} {u : Task} {l : List Task} :
    u ∈ sortMapF k o l ↔ ∃ w ∈ l, u = sortT k o w := by
  induction l with
  | nil => simp [sortMapF]
  | cons t ts ih =>
      rw [sortMapF_cons, List.mem_cons, ih]
      constructor
      · rintro (rfl | ⟨w, hw, rfl⟩)
        · exact ⟨t, List.mem_cons_self _ _, rfl⟩
        · exact ⟨w, List.mem_cons_of_mem _ hw, rfl⟩
      · rintro ⟨w, hw, rfl⟩
        rcases List.mem_cons.mp hw with rfl | hw
        · exact Or.inl rfl
        · exact Or.inr ⟨w, hw, rfl⟩

theorem sortedTasks_priority_sorted (o : SortOrder) (l : List Task) :
    List.Sorted (prioRel o) (sortedTasks l .priority o) :=
  (List.sorted_insertionSort _ _).imp fun h => (sortLe_priority_iff o _ _).mp h

theorem sortT_corr (k : SortKey) (o : SortOrder) (t : Task) :
    ∀ x ∈ flattenT (sortT k o t),
      ∃ s ∈ flattenT t, scalars x = scalars s ∧ x.children = sortedTasks s.children k o := by
  match t with
  | .mk i tx dn c ch p du n ca co =>
      intro x hx
      rw [flattenT_def] at hx
      rcases List.mem_cons.mp hx with rfl | hx
      · exact ⟨.mk i tx dn c ch p du n ca co, mem_flattenT_self _,
          scalars_sortT k o _, children_sortT k o _⟩
      · rw [children_sortT, sortedTasks, Task.children_mk] at hx
        obtain ⟨u, hu, hxu⟩ := mem_flattenF_iff.mp hx
        have hu' : u ∈ sortMapF k o ch := (List.perm_insertionSort _ _).mem_iff.mp hu
        obtain ⟨w, hw, rfl⟩ := mem_sortMapF.mp hu'
        obtain ⟨s, hs, hsc, hch⟩ := sortT_corr k o w x hxu
        refine ⟨s, ?_, hsc, hch⟩
        rw [flattenT_def, Task.children_mk]
        exact List.mem_cons_of_mem _ (mem_flattenF_iff.mpr ⟨w, hw, hs⟩)
termination_by sizeOf t
decreasing_by
  have h1 : sizeOf w < sizeOf ch := List.sizeOf_lt_of_mem hw
  simp only [Task.mk.sizeOf_spec]
  omega

theorem sortedTasks_corr (k : SortKey) (o : SortOrder) (l : List Task) :
    ∀ x ∈ flattenF (sortedTasks l k o),
      ∃ s ∈ flattenF l, scalars x = scalars s ∧ x.children = sortedTasks s.children k o := by
  intro x hx
  rw [sortedTasks] at hx
  obtain ⟨u, hu, hxu⟩ := mem_flattenF_iff.mp hx
  have hu' : u ∈ sortMapF k o l := (List.perm_insertionSort _ _).mem_iff.mp hu
  obtain ⟨w, hw, rfl⟩ := mem_sortMapF.mp hu'
  obtain ⟨s, hs, hsc, hch⟩ := sortT_corr k o w x hxu
  exact ⟨s, mem_flattenF_iff.mpr ⟨w, hw, hs⟩, hsc, hch⟩

theorem filter_orderedInsert {α : Type} (r : α → α → Prop) [DecidableRel r] (q : α → Bool)
    (x : α) (hq : q x = true → ∀ y, ¬ r x y → q y = false) :
    ∀ l : List α, (List.orderedInsert r x l).filter q =
      if q x = true then x :: l.filter q else l.filter q
  | [] => by
      cases hqx : q x
      · simp [List.orderedInsert, hqx]
      · simp [List.orderedInsert, hqx]
  | b :: l => by
      rw [List.orderedInsert]
      by_cases hr : r x b
      · rw [if_pos hr]
        cases hqx : q x
        · simp [List.filter_cons, hqx]
        · simp [List.filter_cons, hqx]
      · rw [if_neg hr, List.filter_cons, List.filter_cons,
          filter_orderedInsert r q x hq l]
        cases hqx : q x
        · simp [List.filter_cons]
        · simp [List.filter_cons, hq hqx b hr]

theorem filter_insertionSort {α : Type} (r : α → α → Prop) [DecidableRel r] (q : α → Bool)
    (hq : ∀ x, q x = true → ∀ y, ¬ r x y → q y = false) :
    ∀ l : List α, (List.insertionSort r l).filter q = l.filter q
  | [] => rfl
  | x :: l => by
      rw [List.insertionSort, filter_orderedInsert r q x (hq x) (List.insertionSort r l),
        filter_insertionSort r q hq l, List.filter_cons]

theorem sortMapF_filter_scalars (k : SortKey) (o : SortOrder) (v : Int) (l : List Task) :
    ((sortMapF k o l).filter (fun t => decide (prioVal t.priority = v))).map scalars =
      (l.filter (fun t => decide (prioVal t.priority = v))).map scalars := by
  induction l with
  | nil => rfl
  | cons t ts ih =>
      rw [sortMapF_cons, List.filter_cons, List.filter_cons]
      by_cases hv : prioVal t.priority = v
      · rw [if_pos (by simp [priority_sortT, hv]), if_pos (by simp [hv]),
          List.map_cons, List.map_cons, scalars_sortT, ih]
      · rw [if_neg (by simp [priority_sortT, hv]), if_neg (by simp [hv])]
        exact ih

theorem sortLe_priority_filter_compat (o : SortOrder) (v : Int) :
    ∀ x : Task, decide (prioVal x.priority = v) = true →
      ∀ y : Task, ¬ sortLe .priority o x y →
        decide (prioVal y.priority = v) = false := by
  intro x hx y hr
  rw [sortLe_priority_iff] at hr
  rw [decide_eq_true_eq] at hx
  rw [decide_eq_false_iff_not]
  cases o
  · simp only [prioRel, not_le] at hr
    omega
  · simp only [prioRel, not_le] at hr
    omega

/-- Counterexample for C5 as stated: with `order = asc` the claim demands
ascending numeric priority (absent first, high last), but on the forest
`[lo (absent), hi (high)]` the code produces `[hi, lo]` — numeric
priorities `[3, 0]` — which is not ascending. -/
theorem sortedTasks_asc_descending_counterexample :
    ((sortedTasks [s5lo, s5hi] .priority .asc).map (fun t => prioVal t.priority) = [3, 0]) ∧
      ¬ List.Sorted (fun a b : Task => prioVal a.priority ≤ prioVal b.priority)
        (sortedTasks [s5lo, s5hi] .priority .asc) :=
  ⟨rfl, by decide⟩

/-- Claim C5 (amended): with key `priority` every sibling sequence of the
result (the root sequence and every node's children) is sorted by the
numeric priority values high=3, medium=2, low=1, absent=0 — but in the
direction opposite to the claim: `asc` yields descending numeric priority
(high first, absent last) and `desc` ascending (absent first).  Ties keep
the input (stable) order: filtering any priority level out of the sorted
root sequence returns those nodes, with all scalar fields, in input order;
and every node of the result is an input node whose children were sorted
the same way (so the per-level properties propagate recursively). -/
theorem sortedTasks_priority_spec (o : SortOrder) (l : List Task) :
    List.Sorted (prioRel o) (sortedTasks l .priority o) ∧
    (∀ x ∈ flattenF (sortedTasks l .priority o), List.Sorted (prioRel o) x.children) ∧
    (∀ v : Int, ((sortedTasks l .priority o).filter
        (fun t => decide (prioVal t.priority = v))).map scalars =
      (l.filter (fun t => decide (prioVal t.priority = v))).map scalars) ∧
    (∀ x ∈ flattenF (sortedTasks l .priority o),
      ∃ s ∈ flattenF l, scalars x = scalars s ∧
        x.children = sortedTasks s.children .priority o) := by
  refine ⟨sortedTasks_priority_sorted o l, ?_, ?_, sortedTasks_corr .priority o l⟩
  · intro x hx
    obtain ⟨s, -, -, hch⟩ := sortedTasks_corr .priority o l x hx
    rw [hch]
    exact sortedTasks_priority_sorted o s.children
  · intro v
    rw [sortedTasks, filter_insertionSort (sortLe .priority o) _
      (sortLe_priority_filter_compat o v), sortMapF_filter_scalars]

/-- Witness for C5 (amended): the children of a node of the concrete sorted
forest are sorted in the established direction. -/
theorem sortedTasks_priority_spec_witness :
    List.Sorted (prioRel .asc) s5hi.children :=
  (sortedTasks_priority_spec .asc [s5lo, s5hi]).2.1 s5hi (List.Mem.head _)
